import Mathlib

/-!
Verification of `scripts/fix-warning-flag.py`: a repo-wide replacement of the
unsupported clang flag `-Wno-nontrivial-memcall` by `-Wno-nontrivial-memaccess`.

The development shallowly embeds the script: file contents are lists of
characters, Python's `str.count` / `in` / `str.replace` become the fuel-indexed
recursive functions below (fuel equals the length of the scanned text, so every
definition is executable and reduces definitionally), the directory tree is a
mutual inductive, and the command-line driver becomes a pure function from
flags and a tree to a run outcome.
-/

/-- The deprecated flag searched for (`BAD_FLAG` in the script). -/
def BAD : List Char := "-Wno-nontrivial-memcall".toList

/-- The replacement flag (`GOOD_FLAG` in the script). -/
def GOOD : List Char := "-Wno-nontrivial-memaccess".toList

/-- Python's `pat in s` for a text `s`: does `pat` occur as a contiguous
substring?  Recursion on `s`; at each position we test whether `pat` starts
there. -/
def containsSub (pat : List Char) : List Char → Bool
  | [] => pat.isEmpty
  | c :: rest => pat.isPrefixOf (c :: rest) || containsSub pat rest

/-- Python's `s.count(pat)` for a nonempty `pat`: non-overlapping occurrences,
scanned left to right.  `fuel` bounds the recursion (callers pass `s.length`);
the `pat ≠ []` guard only serves totality, the script's pattern is nonempty. -/
def countOccF (pat : List Char) : Nat → List Char → Nat
  | 0, _ => 0
  | _ + 1, [] => 0
  | fuel + 1, c :: rest =>
    if pat ≠ [] ∧ pat.isPrefixOf (c :: rest) then
      countOccF pat fuel ((c :: rest).drop pat.length) + 1
    else
      countOccF pat fuel rest

/-- Python's `s.count(pat)`. -/
def countOcc (pat s : List Char) : Nat := countOccF pat s.length s

/-- Python's `s.replace(pat, rep)` for a nonempty `pat`: every non-overlapping
occurrence of `pat`, scanned left to right, becomes `rep`; all other characters
are kept.  `fuel` bounds the recursion (callers pass `s.length`). -/
def pyReplaceF (pat rep : List Char) : Nat → List Char → List Char
  | 0, s => s
  | _ + 1, [] => []
  | fuel + 1, c :: rest =>
    if pat ≠ [] ∧ pat.isPrefixOf (c :: rest) then
      rep ++ pyReplaceF pat rep fuel ((c :: rest).drop pat.length)
    else
      c :: pyReplaceF pat rep fuel rest

/-- Python's `s.replace(pat, rep)`. -/
def pyReplace (pat rep s : List Char) : List Char := pyReplaceF pat rep s.length s

/-- The decomposition of `s` induced by the left-to-right scan of
`s.replace(pat, rep)`: the maximal runs of characters between the matched
occurrences of `pat`, in order.  `joinWith pat` rebuilds `s` from it and
`joinWith rep` rebuilds the replacement result. -/
def pySplitF (pat : List Char) : Nat → List Char → List (List Char)
  | 0, s => [s]
  | _ + 1, [] => [[]]
  | fuel + 1, c :: rest =>
    if pat ≠ [] ∧ pat.isPrefixOf (c :: rest) then
      [] :: pySplitF pat fuel ((c :: rest).drop pat.length)
    else
      match pySplitF pat fuel rest with
      | [] => [[c]]
      | p :: ps => (c :: p) :: ps

/-- The match decomposition of `s` for pattern `pat`. -/
def pySplit (pat s : List Char) : List (List Char) := pySplitF pat s.length s

/-- Concatenate the pieces, inserting `sep` between consecutive pieces. -/
def joinWith (sep : List Char) : List (List Char) → List Char
  | [] => []
  | [p] => p
  | p :: q :: ps => p ++ sep ++ joinWith sep (q :: ps)

/-- The script's `SKIP_DIRS`: directory names the walker never descends into. -/
def SKIP_DIRS : List (List Char) :=
  [".git".toList, "out".toList, "node_modules".toList, "__pycache__".toList,
   ".cache".toList]

/-- The script's `BINARY_EXTENSIONS`: the fixed deny-list of extensions. -/
def BINARY_EXTENSIONS : List (List Char) :=
  [".png".toList, ".jpg".toList, ".jpeg".toList, ".gif".toList, ".bmp".toList,
   ".ico".toList, ".webp".toList,
   ".pdf".toList, ".zip".toList, ".tar".toList, ".gz".toList, ".bz2".toList,
   ".xz".toList, ".7z".toList,
   ".exe".toList, ".dll".toList, ".so".toList, ".dylib".toList, ".a".toList,
   ".o".toList, ".obj".toList,
   ".pyc".toList, ".pyo".toList, ".class".toList, ".jar".toList,
   ".woff".toList, ".woff2".toList, ".ttf".toList, ".otf".toList, ".eot".toList,
   ".mp3".toList, ".mp4".toList, ".avi".toList, ".mov".toList, ".mkv".toList,
   ".wav".toList,
   ".db".toList, ".sqlite".toList, ".sqlite3".toList]

/-- Index of the last `'.'` in a file name, if any (Python's `name.rfind('.')`
restricted to the found case). -/
def rfindDot : List Char → Option Nat
  | [] => none
  | c :: rest =>
    match rfindDot rest with
    | some i => some (i + 1)
    | none => if c = '.' then some 0 else none

/-- Python's `pathlib.Path(name).suffix` on a plain file name: the part of the
name from its last dot on, provided that dot is neither the first nor the last
character; otherwise the empty suffix. -/
def pySuffix (name : List Char) : List Char :=
  match rfindDot name with
  | some i => if 0 < i ∧ i < name.length - 1 then name.drop i else []
  | none => []

/-- A regular file of the modelled filesystem: its name, its content (one
character per byte; the script's flag strings are ASCII so the text decode with
`errors="ignore"` is the identity on the bytes that matter), and whether the
operating system lets the script read resp. write it.  A failed `open`/`read`
raises `IOError`/`OSError` in the script; a failed `open(..., "w")`/`write`
likewise.  Writes are modelled atomically: a failed write leaves the previous
content. -/
structure SFile where
  name : List Char
  content : List Char
  readOk : Bool
  writeOk : Bool
deriving DecidableEq, Repr

/-- The script's `is_binary_file`: extension (lower-cased) in the deny-list,
or the first 8192 bytes contain a null byte; an unreadable file (the chunk read
raises) is also classified binary.  The checks occur in the script's order. -/
def is_binary_file (f : SFile) : Bool :=
  if (pySuffix f.name).map Char.toLower ∈ BINARY_EXTENSIONS then true
  else if f.readOk = false then true
  else if (f.content.take 8192).contains (Char.ofNat 0) then true
  else false

mutual

/-- A filesystem entry: a regular file, or a directory with a name and
entries. -/
inductive FSEntry : Type where
  | file : SFile → FSEntry
  | dir : List Char → FSEntries → FSEntry

/-- The ordered entries of a directory. -/
inductive FSEntries : Type where
  | nil : FSEntries
  | cons : FSEntry → FSEntries → FSEntries

end

mutual

/-- Files yielded by `os.walk` below an entry: a skipped directory (name in
`SKIP_DIRS`, pruned from `dirnames` by the script) contributes nothing. -/
def walkEntry : FSEntry → List SFile
  | .file f => [f]
  | .dir n es => if n ∈ SKIP_DIRS then [] else walkEntries es

/-- Files yielded by `os.walk` over a directory's entries.  (The traversal
order of `os.walk` is unspecified by the spec; the model fixes entry order.) -/
def walkEntries : FSEntries → List SFile
  | .nil => []
  | .cons e es => walkEntry e ++ walkEntries es

end

mutual

/-- All files below an entry, without any skipping. -/
def allEntry : FSEntry → List SFile
  | .file f => [f]
  | .dir _ es => allEntries es

/-- All files below a directory's entries, without any skipping. -/
def allEntries : FSEntries → List SFile
  | .nil => []
  | .cons e es => allEntry e ++ allEntries es

end

mutual

/-- Remove every directory whose name is in `SKIP_DIRS`, at every depth. -/
def pruneEntry : FSEntry → Option FSEntry
  | .file f => some (.file f)
  | .dir n es => if n ∈ SKIP_DIRS then none else some (.dir n (pruneEntries es))

/-- Remove every skip-named directory from a directory's entries, recursively. -/
def pruneEntries : FSEntries → FSEntries
  | .nil => .nil
  | .cons e es =>
    match pruneEntry e with
    | none => pruneEntries es
    | some e' => .cons e' (pruneEntries es)

end

/-- A diagnostic the script prints to `stderr`. -/
inductive StderrMsg : Type where
  | couldNotRead : SFile → StderrMsg
  | couldNotModify : SFile → StderrMsg
  | notADirectory : StderrMsg
  | commitFailed : StderrMsg
deriving DecidableEq, Repr

/-- The scanning loop of `find_files_with_bad_flag`: per candidate file, skip
it when `is_binary_file`; otherwise open it for reading — on failure print a
warning and continue, on success record the file with its occurrence count when
that count is positive.  Returns (results, warnings). -/
def scanFiles : List SFile → List (SFile × Nat) × List StderrMsg
  | [] => ([], [])
  | f :: fs =>
    let r := scanFiles fs
    if is_binary_file f then r
    else if f.readOk then
      (if 0 < countOcc BAD f.content then (f, countOcc BAD f.content) :: r.1 else r.1,
        r.2)
    else (r.1, .couldNotRead f :: r.2)

/-- The script's `find_files_with_bad_flag`, over the root's entries. -/
def find_files_with_bad_flag (es : FSEntries) : List (SFile × Nat) × List StderrMsg :=
  scanFiles (walkEntries es)

/-- Outcome of `replace_in_file`: `changed` is the script's `True`; `unchanged`
its early `False` (flag absent); `failed` its exception branch (`False` after a
diagnostic). -/
inductive RepResult : Type where
  | changed : RepResult
  | unchanged : RepResult
  | failed : RepResult
deriving DecidableEq, Repr

/-- The script's `replace_in_file`: read (a failure is caught), return `False`
when the flag is absent, else write the replaced content (a failure is
caught). -/
def replace_in_file (f : SFile) : RepResult :=
  if f.readOk = false then .failed
  else if containsSub BAD f.content = false then .unchanged
  else if f.writeOk then .changed else .failed

/-- The content a file holds after `replace_in_file` ran on it. -/
def replacedContent (f : SFile) : List Char :=
  if replace_in_file f = .changed then pyReplace BAD GOOD f.content else f.content

/-- Effect of the apply loop on one walked file: `replace_in_file` runs exactly
on the files `find_files_with_bad_flag` returned (not binary, readable,
positive count). -/
def applyFile (f : SFile) : SFile :=
  if is_binary_file f then f
  else if f.readOk = false then f
  else if 0 < countOcc BAD f.content then { f with content := replacedContent f }
  else f

mutual

/-- Effect of the apply loop on an entry; a skipped directory is untouched. -/
def applyEntry : FSEntry → FSEntry
  | .file f => .file (applyFile f)
  | .dir n es => .dir n (if n ∈ SKIP_DIRS then es else applyEntries es)

/-- Effect of the apply loop on a directory's entries. -/
def applyEntries : FSEntries → FSEntries
  | .nil => .nil
  | .cons e es => .cons (applyEntry e) (applyEntries es)

end

/-- The script's `changed_files`: the scanned files for which
`replace_in_file` returned `True`, in scan order. -/
def changedOf : List (SFile × Nat) → List SFile
  | [] => []
  | (f, _) :: rest =>
    if replace_in_file f = .changed then f :: changedOf rest else changedOf rest

/-- The per-file diagnostics of the apply loop (the `except` branch of
`replace_in_file`). -/
def replaceErrs : List (SFile × Nat) → List StderrMsg
  | [] => []
  | (f, _) :: rest =>
    if replace_in_file f = .failed then .couldNotModify f :: replaceErrs rest
    else replaceErrs rest

/-- Observable outcome of one invocation of the script's `main`. -/
structure RunOutcome where
  exitCode : Nat
  fs : FSEntries
  found : List (SFile × Nat)
  changed : List SFile
  staged : List SFile
  committed : Bool
  errLog : List StderrMsg

/-- The script's `main`.  `applyFlag`/`commitFlag` are `--apply`/`--commit`
(`--commit` implies `--apply`); `rootOk` is whether the resolved root is a
directory; `gitOk` is whether the `git add`/`git commit` subprocess block
succeeds; `es` are the root directory's entries.  `staged` is the file list
passed to `git add`. -/
def runMain (applyFlag commitFlag rootOk gitOk : Bool) (es : FSEntries) : RunOutcome :=
  let doApply := applyFlag || commitFlag
  if rootOk = false then
    { exitCode := 1, fs := es, found := [], changed := [], staged := [],
      committed := false, errLog := [.notADirectory] }
  else
    let scanned := find_files_with_bad_flag es
    if scanned.1.isEmpty then
      { exitCode := 0, fs := es, found := scanned.1, changed := [], staged := [],
        committed := false, errLog := scanned.2 }
    else if doApply = false then
      { exitCode := 0, fs := es, found := scanned.1, changed := [], staged := [],
        committed := false, errLog := scanned.2 }
    else
      let changed := changedOf scanned.1
      let es' := applyEntries es
      let errs := scanned.2 ++ replaceErrs scanned.1
      if changed.isEmpty then
        { exitCode := 0, fs := es', found := scanned.1, changed := changed,
          staged := [], committed := false, errLog := errs }
      else if commitFlag then
        if gitOk then
          { exitCode := 0, fs := es', found := scanned.1, changed := changed,
            staged := changed, committed := true, errLog := errs }
        else
          { exitCode := 1, fs := es', found := scanned.1, changed := changed,
            staged := changed, committed := false, errLog := errs ++ [.commitFailed] }
      else
        { exitCode := 0, fs := es', found := scanned.1, changed := changed,
          staged := [], committed := false, errLog := errs }

theorem isPrefixOf_eq {l₁ l₂ : List Char} : l₁.isPrefixOf l₂ = true ↔ l₁ <+: l₂ :=
  List.isPrefixOf_iff_prefix

theorem prefix_of_append_le {q x y : List Char} (h : q <+: x ++ y)
    (hl : q.length ≤ x.length) : q <+: x := by
  have hq := List.prefix_iff_eq_take.mp h
  rw [List.take_append_eq_append_take, Nat.sub_eq_zero_of_le hl, List.take_zero,
    List.append_nil] at hq
  exact hq ▸ List.take_prefix _ _

theorem cons_prefix_split {p : List Char} {c : Char} {l : List Char}
    (h : p <+: c :: l) (hne : p ≠ []) : ∃ p', p = c :: p' ∧ p' <+: l := by
  cases p with
  | nil => exact absurd rfl hne
  | cons a t =>
    obtain ⟨rfl, ht⟩ := List.cons_prefix_cons.mp h
    exact ⟨t, rfl, ht⟩

/-- Occurrence characterisation: `pat` occurs as a substring exactly when the text splits around a copy of
`pat`. -/
theorem containsSub_iff {pat l : List Char} :
    containsSub pat l = true ↔ ∃ x y, x ++ (pat ++ y) = l := by
  induction l with
  | nil =>
    constructor
    · intro h
      have : pat = [] := by simpa [containsSub, List.isEmpty_iff] using h
      exact ⟨[], [], by simp [this]⟩
    · rintro ⟨x, y, hxy⟩
      have hx : x = [] ∧ pat ++ y = [] := by simpa using List.append_eq_nil.mp hxy
      have : pat = [] := (List.append_eq_nil.mp hx.2).1
      simp [containsSub, this]
  | cons c rest ih =>
    constructor
    · intro h
      have h' : pat <+: c :: rest ∨ containsSub pat rest = true := by
        simpa [containsSub] using h
      rcases h' with hp | hrest
      · obtain ⟨t, ht⟩ := hp
        exact ⟨[], t, by simpa using ht⟩
      · obtain ⟨x, y, hxy⟩ := ih.mp hrest
        exact ⟨c :: x, y, by simp [hxy]⟩
    · rintro ⟨x, y, hxy⟩
      cases x with
      | nil =>
        have : pat <+: c :: rest := ⟨y, by simpa using hxy⟩
        simp [containsSub, isPrefixOf_eq.mpr this]
      | cons c' x' =>
        have hc : c' = c := by simpa using congrArg (fun l => l.head?) hxy
        have hrest : x' ++ (pat ++ y) = rest := by
          simpa [hc] using congrArg (fun l => l.tail) hxy
        have := ih.mpr ⟨x', y, hrest⟩
        simp [containsSub, this]

theorem containsSub_nil_of_ne {pat : List Char} (hpat : pat ≠ []) :
    containsSub pat [] = false := by
  cases pat with
  | nil => exact absurd rfl hpat
  | cons a t => rfl

/-- A short enough prefix of the replacement output is either a prefix of the
input, or a first residual run of the input (one followed in the input by a
match) extended by a nonempty prefix of `rep`. -/
theorem pyReplaceF_short_prefixes {pat rep : List Char} (hpat : pat ≠ [])
    (hlen : pat.length ≤ rep.length) :
    ∀ fuel s q, s.length ≤ fuel → q <+: pyReplaceF pat rep fuel s →
      q.length ≤ pat.length →
      q <+: s ∨ ∃ a b, q = a ++ b ∧ b ≠ [] ∧ b <+: rep ∧ a ++ pat <+: s := by
  intro fuel
  induction fuel with
  | zero =>
    intro s q hs hq _
    exact Or.inl (by simpa [pyReplaceF] using hq)
  | succ fuel ih =>
    intro s q hs hq hql
    cases s with
    | nil => exact Or.inl (by simpa [pyReplaceF] using hq)
    | cons c rest =>
      by_cases hp : pat.isPrefixOf (c :: rest) = true
      · have hout : pyReplaceF pat rep (fuel + 1) (c :: rest)
            = rep ++ pyReplaceF pat rep fuel ((c :: rest).drop pat.length) := by
          simp [pyReplaceF, hpat, hp]
        rw [hout] at hq
        have hqrep : q <+: rep := prefix_of_append_le hq (le_trans hql hlen)
        cases q with
        | nil => exact Or.inl List.nil_prefix
        | cons a t =>
          exact Or.inr ⟨[], a :: t, rfl, by simp, hqrep,
            by simpa using isPrefixOf_eq.mp hp⟩
      · have hout : pyReplaceF pat rep (fuel + 1) (c :: rest)
            = c :: pyReplaceF pat rep fuel rest := by
          simp [pyReplaceF, hp]
        rw [hout] at hq
        cases q with
        | nil => exact Or.inl List.nil_prefix
        | cons a t =>
          obtain ⟨hac, ht⟩ := List.cons_prefix_cons.mp hq
          subst hac
          have hrest : rest.length ≤ fuel := by
            simpa [Nat.succ_le_succ_iff] using hs
          have htl : t.length ≤ pat.length :=
            le_trans (Nat.le_succ _) (by simpa using hql)
          rcases ih rest t hrest ht htl with hts | ⟨a', b, rfl, hbne, hbrep, hap⟩
          · exact Or.inl (List.cons_prefix_cons.mpr ⟨rfl, hts⟩)
          · exact Or.inr ⟨a :: a', b, rfl, hbne, hbrep,
              List.cons_prefix_cons.mpr ⟨rfl, hap⟩⟩

/-- No occurrence of `pat` survives the left-to-right replacement, provided:
`pat` does not occur in `rep`; `pat` is no longer than `rep`; no nonempty
proper suffix of `rep` starts `pat`; and every proper suffix of `pat` that
starts `rep` also starts `pat`.  All four side conditions hold for the
script's two flag strings and are discharged by `decide` below. -/
theorem pyReplaceF_no_occurrence {pat rep : List Char} (hpat : pat ≠ [])
    (hlen : pat.length ≤ rep.length)
    (hrep : containsSub pat rep = false)
    (hsuf : ∀ k, k < rep.length → 0 < k → (rep.drop k).isPrefixOf pat = false)
    (hpre : ∀ k, k < pat.length → 0 < k → (pat.drop k).isPrefixOf rep = true →
      (pat.drop k).isPrefixOf pat = true) :
    ∀ fuel s, s.length ≤ fuel →
      containsSub pat (pyReplaceF pat rep fuel s) = false := by
  intro fuel
  induction fuel with
  | zero =>
    intro s hs
    have hnil : s = [] := List.length_eq_zero.mp (Nat.le_zero.mp hs)
    subst hnil
    simpa [pyReplaceF] using containsSub_nil_of_ne hpat
  | succ fuel ih =>
    intro s hs
    cases s with
    | nil => simpa [pyReplaceF] using containsSub_nil_of_ne hpat
    | cons c rest =>
      by_cases hp : pat.isPrefixOf (c :: rest) = true
      · have hout : pyReplaceF pat rep (fuel + 1) (c :: rest)
            = rep ++ pyReplaceF pat rep fuel ((c :: rest).drop pat.length) := by
          simp [pyReplaceF, hpat, hp]
        rw [hout]
        have hp1 : 1 ≤ pat.length := by
          cases pat with
          | nil => exact absurd rfl hpat
          | cons a t => simp
        have hdl : ((c :: rest).drop pat.length).length ≤ fuel := by
          rw [List.length_drop]
          have hs' : rest.length + 1 ≤ fuel + 1 := by simpa using hs
          simp only [List.length_cons]
          omega
        have hRf : containsSub pat
            (pyReplaceF pat rep fuel ((c :: rest).drop pat.length)) = false :=
          ih _ hdl
        cases hcc : containsSub pat
            (rep ++ pyReplaceF pat rep fuel ((c :: rest).drop pat.length)) with
        | false => rfl
        | true =>
          exfalso
          obtain ⟨x, y, hxy⟩ := containsSub_iff.mp hcc
          rcases le_or_lt (x.length + pat.length) rep.length with hA | hA'
          · have hxp : x ++ pat <+: rep
                ++ pyReplaceF pat rep fuel ((c :: rest).drop pat.length) :=
              ⟨y, by rw [List.append_assoc]; exact hxy⟩
            have hxpr : x ++ pat <+: rep :=
              prefix_of_append_le hxp (by simpa [List.length_append] using hA)
            obtain ⟨z, hz⟩ := hxpr
            have hct : containsSub pat rep = true :=
              containsSub_iff.mpr ⟨x, z, by rw [← hz]; simp⟩
            rw [hrep] at hct
            exact Bool.false_ne_true hct
          · rcases le_or_lt rep.length x.length with hB | hB'
            · have hxw : x <+: rep
                  ++ pyReplaceF pat rep fuel ((c :: rest).drop pat.length) :=
                ⟨pat ++ y, hxy⟩
              have hrx : rep <+: x :=
                List.prefix_of_prefix_length_le (List.prefix_append _ _) hxw hB
              obtain ⟨x', hx'⟩ := hrx
              have hxy' : (rep ++ x') ++ (pat ++ y)
                  = rep ++ pyReplaceF pat rep fuel ((c :: rest).drop pat.length) := by
                rw [hx']; exact hxy
              have hcancel : x' ++ (pat ++ y)
                  = pyReplaceF pat rep fuel ((c :: rest).drop pat.length) := by
                rw [List.append_assoc] at hxy'
                exact List.append_cancel_left hxy'
              have hct : containsSub pat
                  (pyReplaceF pat rep fuel ((c :: rest).drop pat.length)) = true :=
                containsSub_iff.mpr ⟨x', y, hcancel⟩
              rw [hRf] at hct
              exact Bool.false_ne_true hct
            · have hxr : x <+: rep :=
                List.prefix_of_prefix_length_le ⟨pat ++ y, hxy⟩
                  (List.prefix_append _ _) hB'.le
              obtain ⟨r', hr'⟩ := hxr
              have hxy' : x ++ (pat ++ y)
                  = x ++ (r' ++ pyReplaceF pat rep fuel ((c :: rest).drop pat.length)) := by
                rw [hxy, ← hr', List.append_assoc]
              have hcancel : pat ++ y
                  = r' ++ pyReplaceF pat rep fuel ((c :: rest).drop pat.length) :=
                List.append_cancel_left hxy'
              have hlenxr : x.length + r'.length = rep.length := by
                have := congrArg List.length hr'
                simpa [List.length_append] using this
              have hr'lt : r'.length < pat.length := by omega
              have hr'pat : r' <+: pat := by
                have h5 : r' <+: pat ++ y := by
                  rw [hcancel]; exact List.prefix_append _ _
                exact prefix_of_append_le h5 hr'lt.le
              have hxpos : 0 < x.length := by omega
              have hsufk := hsuf x.length hB' hxpos
              have hdrop : rep.drop x.length = r' := by
                rw [← hr']; exact List.drop_left x r'
              rw [hdrop] at hsufk
              exact absurd (isPrefixOf_eq.mpr hr'pat) (by simp [hsufk])
      · have hout : pyReplaceF pat rep (fuel + 1) (c :: rest)
            = c :: pyReplaceF pat rep fuel rest := by
          simp [pyReplaceF, hp]
        rw [hout]
        have hrest : rest.length ≤ fuel := by
          have hs' : rest.length + 1 ≤ fuel + 1 := by simpa using hs
          omega
        have hRf := ih rest hrest
        have hcc : containsSub pat (c :: pyReplaceF pat rep fuel rest)
            = (pat.isPrefixOf (c :: pyReplaceF pat rep fuel rest)
              || containsSub pat (pyReplaceF pat rep fuel rest)) := rfl
        rw [hcc, hRf, Bool.or_false]
        cases hpp : pat.isPrefixOf (c :: pyReplaceF pat rep fuel rest) with
        | false => rfl
        | true =>
          exfalso
          obtain ⟨pt, hpt, hptR⟩ := cons_prefix_split (isPrefixOf_eq.mp hpp) hpat
          have hptl : pt.length ≤ pat.length := by rw [hpt]; simp
          rcases pyReplaceF_short_prefixes hpat hlen fuel rest pt hrest hptR hptl
            with hts | ⟨a, b, hab, hbne, hbrep, hap⟩
          · have hps : pat <+: c :: rest := by
              rw [hpt]; exact List.cons_prefix_cons.mpr ⟨rfl, hts⟩
            exact absurd (isPrefixOf_eq.mpr hps) (by simp [hp])
          · have hpatab : pat = (c :: a) ++ b := by rw [hpt, hab]; rfl
            have hk : pat.drop (c :: a).length = b := by
              rw [hpatab]; exact List.drop_left _ _
            have hklt : (c :: a).length < pat.length := by
              have := congrArg List.length hpatab
              simp only [List.length_append] at this
              have hbpos : 0 < b.length := List.length_pos.mpr hbne
              omega
            have hbp : (pat.drop (c :: a).length).isPrefixOf pat = true := by
              apply hpre _ hklt (by simp)
              rw [hk]; exact isPrefixOf_eq.mpr hbrep
            rw [hk] at hbp
            have hbpat : b <+: pat := isPrefixOf_eq.mp hbp
            have h1' : (c :: a) ++ b <+: (c :: a) ++ pat :=
              (List.prefix_append_right_inj (c :: a)).mpr hbpat
            have h2 : (c :: a) ++ pat <+: c :: rest := by
              show c :: (a ++ pat) <+: c :: rest
              exact List.cons_prefix_cons.mpr ⟨rfl, hap⟩
            have hps : pat <+: c :: rest := by
              rw [hpatab]; exact h1'.trans h2
            exact absurd (isPrefixOf_eq.mpr hps) (by simp [hp])

/-- Specialisation to the script's flag strings: replacing the bad flag by the
good flag leaves no occurrence of the bad flag in any content. -/
theorem no_bad_after_replace (s : List Char) :
    containsSub BAD (pyReplace BAD GOOD s) = false :=
  pyReplaceF_no_occurrence (by decide) (by decide) (by decide)
    (by decide) (by decide) s.length s le_rfl

theorem length_drop_le {pat : List Char} (hpat : pat ≠ []) (c : Char)
    (rest : List Char) {fuel : Nat} (hs : (c :: rest).length ≤ fuel + 1) :
    ((c :: rest).drop pat.length).length ≤ fuel := by
  rw [List.length_drop]
  have h1 : 1 ≤ pat.length := List.length_pos.mpr hpat
  have hs' : rest.length + 1 ≤ fuel + 1 := by simpa using hs
  simp only [List.length_cons]
  omega

theorem pySplitF_ne_nil (pat : List Char) (fuel : Nat) (s : List Char) :
    pySplitF pat fuel s ≠ [] := by
  cases fuel with
  | zero => simp [pySplitF]
  | succ fuel =>
    cases s with
    | nil => simp [pySplitF]
    | cons c rest =>
      simp only [pySplitF]
      split
      · simp
      · split <;> simp

theorem joinWith_cons_head (sep : List Char) (c : Char) (p : List Char)
    (ps : List (List Char)) :
    joinWith sep ((c :: p) :: ps) = c :: joinWith sep (p :: ps) := by
  cases ps <;> rfl

theorem joinWith_nil_head (sep : List Char) (q : List Char)
    (qs : List (List Char)) :
    joinWith sep ([] :: q :: qs) = sep ++ joinWith sep (q :: qs) := rfl

theorem head_prefix_joinWith (sep p : List Char) (ps : List (List Char)) :
    p <+: joinWith sep (p :: ps) := by
  cases ps with
  | nil => exact List.prefix_rfl
  | cons q qs =>
    exact ⟨sep ++ joinWith sep (q :: qs), by simp [joinWith]⟩

/-- Rebuilding the match decomposition with the pattern itself gives back the
input text. -/
theorem joinWith_pat_pySplitF {pat : List Char} (hpat : pat ≠ []) :
    ∀ fuel s, s.length ≤ fuel → joinWith pat (pySplitF pat fuel s) = s := by
  intro fuel
  induction fuel with
  | zero => intro s _; rfl
  | succ fuel ih =>
    intro s hs
    cases s with
    | nil => rfl
    | cons c rest =>
      by_cases hc : pat.isPrefixOf (c :: rest) = true
      · have hout : pySplitF pat (fuel + 1) (c :: rest)
            = [] :: pySplitF pat fuel ((c :: rest).drop pat.length) := by
          simp [pySplitF, hpat, hc]
        rw [hout]
        have hdl := length_drop_le hpat c rest hs
        cases htail : pySplitF pat fuel ((c :: rest).drop pat.length) with
        | nil => exact absurd htail (pySplitF_ne_nil _ _ _)
        | cons t ts =>
          rw [joinWith_nil_head, ← htail, ih _ hdl]
          exact List.prefix_iff_eq_append.mp (isPrefixOf_eq.mp hc)
      · have hrest : rest.length ≤ fuel := by
          have hs' : rest.length + 1 ≤ fuel + 1 := by simpa using hs
          omega
        cases hsp : pySplitF pat fuel rest with
        | nil => exact absurd hsp (pySplitF_ne_nil _ _ _)
        | cons p ps =>
          have hout : pySplitF pat (fuel + 1) (c :: rest) = (c :: p) :: ps := by
            simp only [pySplitF]
            rw [if_neg (by simp [hc]), hsp]
          rw [hout, joinWith_cons_head, ← hsp, ih _ hrest]

/-- Rebuilding the match decomposition with the replacement text gives exactly
the replacement output: only the matched occurrences change. -/
theorem joinWith_rep_pySplitF {pat rep : List Char} (hpat : pat ≠ []) :
    ∀ fuel s, s.length ≤ fuel →
      joinWith rep (pySplitF pat fuel s) = pyReplaceF pat rep fuel s := by
  intro fuel
  induction fuel with
  | zero => intro s _; rfl
  | succ fuel ih =>
    intro s hs
    cases s with
    | nil => rfl
    | cons c rest =>
      by_cases hc : pat.isPrefixOf (c :: rest) = true
      · have hout : pySplitF pat (fuel + 1) (c :: rest)
            = [] :: pySplitF pat fuel ((c :: rest).drop pat.length) := by
          simp [pySplitF, hpat, hc]
        have hout' : pyReplaceF pat rep (fuel + 1) (c :: rest)
            = rep ++ pyReplaceF pat rep fuel ((c :: rest).drop pat.length) := by
          simp [pyReplaceF, hpat, hc]
        rw [hout, hout']
        have hdl := length_drop_le hpat c rest hs
        cases htail : pySplitF pat fuel ((c :: rest).drop pat.length) with
        | nil => exact absurd htail (pySplitF_ne_nil _ _ _)
        | cons t ts =>
          rw [joinWith_nil_head, ← htail, ih _ hdl]
      · have hrest : rest.length ≤ fuel := by
          have hs' : rest.length + 1 ≤ fuel + 1 := by simpa using hs
          omega
        cases hsp : pySplitF pat fuel rest with
        | nil => exact absurd hsp (pySplitF_ne_nil _ _ _)
        | cons p ps =>
          have hout : pySplitF pat (fuel + 1) (c :: rest) = (c :: p) :: ps := by
            simp only [pySplitF]
            rw [if_neg (by simp [hc]), hsp]
          have hout' : pyReplaceF pat rep (fuel + 1) (c :: rest)
              = c :: pyReplaceF pat rep fuel rest := by
            simp [pyReplaceF, hc]
          rw [hout, hout', joinWith_cons_head, ← hsp, ih _ hrest]

/-- No piece of the match decomposition contains the pattern: the matched
occurrences are the only ones, so all text outside them is pattern-free. -/
theorem pySplitF_pieces_clean {pat : List Char} (hpat : pat ≠ []) :
    ∀ fuel s, s.length ≤ fuel →
      ∀ p ∈ pySplitF pat fuel s, containsSub pat p = false := by
  intro fuel
  induction fuel with
  | zero =>
    intro s hs p hp
    have hnil : s = [] := List.length_eq_zero.mp (Nat.le_zero.mp hs)
    subst hnil
    have : p = [] := by simpa [pySplitF] using hp
    subst this
    exact containsSub_nil_of_ne hpat
  | succ fuel ih =>
    intro s hs p hp
    cases s with
    | nil =>
      have : p = [] := by simpa [pySplitF] using hp
      subst this
      exact containsSub_nil_of_ne hpat
    | cons c rest =>
      by_cases hc : pat.isPrefixOf (c :: rest) = true
      · have hout : pySplitF pat (fuel + 1) (c :: rest)
            = [] :: pySplitF pat fuel ((c :: rest).drop pat.length) := by
          simp [pySplitF, hpat, hc]
        rw [hout] at hp
        have hdl := length_drop_le hpat c rest hs
        rcases List.mem_cons.mp hp with rfl | hmem
        · exact containsSub_nil_of_ne hpat
        · exact ih _ hdl p hmem
      · have hrest : rest.length ≤ fuel := by
          have hs' : rest.length + 1 ≤ fuel + 1 := by simpa using hs
          omega
        cases hsp : pySplitF pat fuel rest with
        | nil => exact absurd hsp (pySplitF_ne_nil _ _ _)
        | cons p0 ps =>
          have hout : pySplitF pat (fuel + 1) (c :: rest) = (c :: p0) :: ps := by
            simp only [pySplitF]
            rw [if_neg (by simp [hc]), hsp]
          rw [hout] at hp
          rcases List.mem_cons.mp hp with rfl | hmem
          · have hp0 : containsSub pat p0 = false :=
              ih _ hrest p0 (hsp ▸ List.mem_cons_self _ _)
            have hpre0 : p0 <+: rest := by
              have hj := joinWith_pat_pySplitF hpat fuel rest hrest
              rw [hsp] at hj
              exact hj ▸ head_prefix_joinWith pat p0 ps
            have hnp : pat.isPrefixOf (c :: p0) = false := by
              cases hcp : pat.isPrefixOf (c :: p0) with
              | false => rfl
              | true =>
                exfalso
                have h1 : pat <+: c :: p0 := isPrefixOf_eq.mp hcp
                have h2 : c :: p0 <+: c :: rest :=
                  List.cons_prefix_cons.mpr ⟨rfl, hpre0⟩
                exact absurd (isPrefixOf_eq.mpr (h1.trans h2)) (by simp [hc])
            show (pat.isPrefixOf (c :: p0) || containsSub pat p0) = false
            rw [hnp, hp0]
            rfl
          · exact ih _ hrest p (hsp ▸ List.mem_cons_of_mem _ hmem)

/-- For a nonempty pattern the occurrence count is zero exactly when the
pattern does not occur. -/
theorem countOccF_eq_zero_iff {pat : List Char} (hpat : pat ≠ []) :
    ∀ fuel s, s.length ≤ fuel →
      (countOccF pat fuel s = 0 ↔ containsSub pat s = false) := by
  intro fuel
  induction fuel with
  | zero =>
    intro s hs
    have hnil : s = [] := List.length_eq_zero.mp (Nat.le_zero.mp hs)
    subst hnil
    simp [countOccF, containsSub_nil_of_ne hpat]
  | succ fuel ih =>
    intro s hs
    cases s with
    | nil => simp [countOccF, containsSub_nil_of_ne hpat]
    | cons c rest =>
      by_cases hc : pat.isPrefixOf (c :: rest) = true
      · have hcnt : countOccF pat (fuel + 1) (c :: rest)
            = countOccF pat fuel ((c :: rest).drop pat.length) + 1 := by
          simp [countOccF, hpat, hc]
        have hcs : containsSub pat (c :: rest) = true := by
          show (pat.isPrefixOf (c :: rest) || containsSub pat rest) = true
          rw [hc]; rfl
        rw [hcnt, hcs]
        simp
      · have hrest : rest.length ≤ fuel := by
          have hs' : rest.length + 1 ≤ fuel + 1 := by simpa using hs
          omega
        have hcnt : countOccF pat (fuel + 1) (c :: rest)
            = countOccF pat fuel rest := by
          simp [countOccF, hc]
        have hcf : pat.isPrefixOf (c :: rest) = false := Bool.eq_false_iff.mpr hc
        have hcs : containsSub pat (c :: rest) = containsSub pat rest := by
          show (pat.isPrefixOf (c :: rest) || containsSub pat rest)
            = containsSub pat rest
          rw [hcf]; rfl
        rw [hcnt, hcs]
        exact ih _ hrest

theorem countOcc_eq_zero_iff {pat : List Char} (hpat : pat ≠ []) (s : List Char) :
    countOcc pat s = 0 ↔ containsSub pat s = false :=
  countOccF_eq_zero_iff hpat s.length s le_rfl

theorem countOcc_pos_iff {pat : List Char} (hpat : pat ≠ []) (s : List Char) :
    0 < countOcc pat s ↔ containsSub pat s = true := by
  rw [Nat.pos_iff_ne_zero]
  constructor
  · intro h
    cases hcs : containsSub pat s with
    | false => exact absurd ((countOcc_eq_zero_iff hpat s).mpr hcs) h
    | true => rfl
  · intro h hz
    rw [(countOcc_eq_zero_iff hpat s).mp hz] at h
    exact Bool.false_ne_true h

theorem countOcc_pyReplace_zero (s : List Char) :
    countOcc BAD (pyReplace BAD GOOD s) = 0 :=
  (countOcc_eq_zero_iff (by decide) _).mpr (no_bad_after_replace s)

theorem readOk_of_not_binary {f : SFile} (h : is_binary_file f = false) :
    f.readOk = true := by
  cases hro : f.readOk with
  | true => rfl
  | false =>
    exfalso
    rw [is_binary_file, hro] at h
    simp at h

theorem setContent_self (f : SFile) : { f with content := f.content } = f := rfl

theorem applyFile_of_binary {f : SFile} (h : is_binary_file f = true) :
    applyFile f = f := by
  rw [applyFile, if_pos h]

theorem applyFile_of_not_changed {f : SFile} (h : replace_in_file f ≠ .changed) :
    applyFile f = f := by
  rw [applyFile]
  split
  · rfl
  · split
    · rfl
    · split
      · rw [replacedContent, if_neg h, setContent_self]
      · rfl

theorem replacedContent_of_changed {f : SFile} (h : replace_in_file f = .changed) :
    replacedContent f = pyReplace BAD GOOD f.content := by
  rw [replacedContent, if_pos h]

/-- A file the apply loop has visited can never be rewritten again: either it
was rewritten (and now holds no occurrence of the bad flag) or it is left
exactly as it was and `replace_in_file` would fail on it exactly as before. -/
theorem applyFile_no_rechange (f : SFile)
    (hb : is_binary_file (applyFile f) = false)
    (hpos : 0 < countOcc BAD (applyFile f).content) :
    replace_in_file (applyFile f) ≠ .changed := by
  rw [applyFile]
  split
  · rename_i h
    rw [applyFile_of_binary h, h] at hb
    exact absurd hb (by simp)
  · split
    · rename_i hbin hro
      intro hch
      rw [replace_in_file, if_pos hro] at hch
      simp at hch
    · split
      · rename_i hbin hro hcnt
        cases hch : replace_in_file f with
        | changed =>
          intro hcon
          have hcc : countOcc BAD
              ({ f with content := replacedContent f } : SFile).content = 0 := by
            show countOcc BAD (replacedContent f) = 0
            rw [replacedContent_of_changed hch]
            exact countOcc_pyReplace_zero f.content
          rw [applyFile, if_neg hbin, if_neg hro, if_pos hcnt, hcc] at hpos
          exact Nat.lt_irrefl 0 hpos
        | unchanged =>
          have heq : ({ f with content := replacedContent f } : SFile) = f := by
            rw [replacedContent, if_neg (by simp [hch]), setContent_self]
          rw [heq, hch]
          simp
        | failed =>
          have heq : ({ f with content := replacedContent f } : SFile) = f := by
            rw [replacedContent, if_neg (by simp [hch]), setContent_self]
          rw [heq, hch]
          simp
      · rename_i hbin hro hcnt
        intro hch
        rw [replace_in_file, if_neg hro] at hch
        have hcs : containsSub BAD f.content = false := by
          cases hcc : containsSub BAD f.content with
          | false => rfl
          | true =>
            exact absurd ((countOcc_pos_iff (by decide) _).mpr hcc) hcnt
        rw [if_pos (by simp [hcs])] at hch
        simp at hch

mutual

theorem walkEntry_applyEntry (e : FSEntry) :
    walkEntry (applyEntry e) = (walkEntry e).map applyFile := by
  cases e with
  | file f => rfl
  | dir n es =>
    by_cases hn : n ∈ SKIP_DIRS
    · simp [walkEntry, applyEntry, hn]
    · simp only [walkEntry, applyEntry, if_neg hn]
      exact walkEntries_applyEntries es

theorem walkEntries_applyEntries (es : FSEntries) :
    walkEntries (applyEntries es) = (walkEntries es).map applyFile := by
  cases es with
  | nil => rfl
  | cons e es =>
    show walkEntry (applyEntry e) ++ walkEntries (applyEntries es) = _
    rw [walkEntry_applyEntry e, walkEntries_applyEntries es, walkEntries,
      List.map_append]

end

mutual

theorem walkEntry_eq_pruned (e : FSEntry) :
    walkEntry e = (match pruneEntry e with
      | none => []
      | some e' => allEntry e') := by
  cases e with
  | file f => rfl
  | dir n es =>
    by_cases hn : n ∈ SKIP_DIRS
    · simp [walkEntry, pruneEntry, hn]
    · simp only [walkEntry, pruneEntry, if_neg hn]
      exact walkEntries_eq_pruned es

theorem walkEntries_eq_pruned (es : FSEntries) :
    walkEntries es = allEntries (pruneEntries es) := by
  cases es with
  | nil => rfl
  | cons e es =>
    show walkEntry e ++ walkEntries es = allEntries (pruneEntries (.cons e es))
    rw [walkEntry_eq_pruned e, walkEntries_eq_pruned es]
    show _ = allEntries (match pruneEntry e with
      | none => pruneEntries es
      | some e' => .cons e' (pruneEntries es))
    cases pruneEntry e with
    | none => simp
    | some e' => rfl

end

theorem scanFiles_cons_binary {f : SFile} (h : is_binary_file f = true)
    (fs : List SFile) : scanFiles (f :: fs) = scanFiles fs := by
  simp [scanFiles, h]

theorem scanFiles_cons_pos {f : SFile} (hb : is_binary_file f = false)
    (hr : f.readOk = true) (hc : 0 < countOcc BAD f.content) (fs : List SFile) :
    scanFiles (f :: fs)
      = ((f, countOcc BAD f.content) :: (scanFiles fs).1, (scanFiles fs).2) := by
  simp [scanFiles, hb, hr, hc]

theorem scanFiles_cons_zero {f : SFile} (hb : is_binary_file f = false)
    (hr : f.readOk = true) (hc : ¬ 0 < countOcc BAD f.content) (fs : List SFile) :
    scanFiles (f :: fs) = scanFiles fs := by
  simp [scanFiles, hb, hr, hc]

/-- Soundness of the scan: every reported pair comes from a walked,
non-binary, readable file and carries its positive occurrence count. -/
theorem scanFiles_mem {f : SFile} {k : Nat} :
    ∀ fs, (f, k) ∈ (scanFiles fs).1 →
      f ∈ fs ∧ is_binary_file f = false ∧ k = countOcc BAD f.content ∧ 0 < k := by
  intro fs
  induction fs with
  | nil => intro h; simp [scanFiles] at h
  | cons g fs ih =>
    intro h
    by_cases hb : is_binary_file g = true
    · rw [scanFiles_cons_binary hb] at h
      obtain ⟨h1, h2, h3, h4⟩ := ih h
      exact ⟨List.mem_cons_of_mem _ h1, h2, h3, h4⟩
    · have hbf : is_binary_file g = false := Bool.eq_false_iff.mpr hb
      have hr : g.readOk = true := readOk_of_not_binary hbf
      by_cases hc : 0 < countOcc BAD g.content
      · rw [scanFiles_cons_pos hbf hr hc] at h
        rcases List.mem_cons.mp h with heq | hmem
        · injection heq with hf hk
          subst hf
          subst hk
          exact ⟨List.mem_cons_self _ _, hbf, rfl, hc⟩
        · obtain ⟨h1, h2, h3, h4⟩ := ih hmem
          exact ⟨List.mem_cons_of_mem _ h1, h2, h3, h4⟩
      · rw [scanFiles_cons_zero hbf hr hc] at h
        obtain ⟨h1, h2, h3, h4⟩ := ih h
        exact ⟨List.mem_cons_of_mem _ h1, h2, h3, h4⟩

/-- Completeness of the scan: every non-binary file among the candidates whose
content contains the flag is reported with its count. -/
theorem scanFiles_complete {f : SFile} :
    ∀ fs, f ∈ fs → is_binary_file f = false → 0 < countOcc BAD f.content →
      (f, countOcc BAD f.content) ∈ (scanFiles fs).1 := by
  intro fs
  induction fs with
  | nil => intro h; simp at h
  | cons g fs ih =>
    intro hmem hbf hc
    rcases List.mem_cons.mp hmem with rfl | hmem'
    · rw [scanFiles_cons_pos hbf (readOk_of_not_binary hbf) hc]
      exact List.mem_cons_self _ _
    · by_cases hb : is_binary_file g = true
      · rw [scanFiles_cons_binary hb]
        exact ih hmem' hbf hc
      · have hgf : is_binary_file g = false := Bool.eq_false_iff.mpr hb
        have hr : g.readOk = true := readOk_of_not_binary hgf
        by_cases hgc : 0 < countOcc BAD g.content
        · rw [scanFiles_cons_pos hgf hr hgc]
          exact List.mem_cons_of_mem _ (ih hmem' hbf hc)
        · rw [scanFiles_cons_zero hgf hr hgc]
          exact ih hmem' hbf hc

theorem changedOf_cons_changed {f : SFile} {k : Nat}
    (h : replace_in_file f = .changed) (l : List (SFile × Nat)) :
    changedOf ((f, k) :: l) = f :: changedOf l := by
  simp [changedOf, h]

theorem changedOf_cons_not {f : SFile} {k : Nat}
    (h : ¬ replace_in_file f = .changed) (l : List (SFile × Nat)) :
    changedOf ((f, k) :: l) = changedOf l := by
  simp [changedOf, h]

theorem changedOf_eq_nil :
    ∀ {l : List (SFile × Nat)},
      (∀ p ∈ l, ¬ replace_in_file p.1 = .changed) → changedOf l = [] := by
  intro l
  induction l with
  | nil => intro _; rfl
  | cons p l ih =>
    intro h
    obtain ⟨f, k⟩ := p
    rw [changedOf_cons_not (h (f, k) (List.mem_cons_self _ _))]
    exact ih fun q hq => h q (List.mem_cons_of_mem _ hq)

theorem changedOf_append (l₁ l₂ : List (SFile × Nat)) :
    changedOf (l₁ ++ l₂) = changedOf l₁ ++ changedOf l₂ := by
  induction l₁ with
  | nil => rfl
  | cons p l ih =>
    obtain ⟨f, k⟩ := p
    by_cases h : replace_in_file f = .changed
    · rw [List.cons_append, changedOf_cons_changed h, changedOf_cons_changed h,
        ih, List.cons_append]
    · rw [List.cons_append, changedOf_cons_not h, changedOf_cons_not h, ih]

theorem replaceErrs_cons_failed {f : SFile} {k : Nat}
    (h : replace_in_file f = .failed) (l : List (SFile × Nat)) :
    replaceErrs ((f, k) :: l) = .couldNotModify f :: replaceErrs l := by
  simp [replaceErrs, h]

theorem replaceErrs_append (l₁ l₂ : List (SFile × Nat)) :
    replaceErrs (l₁ ++ l₂) = replaceErrs l₁ ++ replaceErrs l₂ := by
  induction l₁ with
  | nil => rfl
  | cons p l ih =>
    obtain ⟨f, k⟩ := p
    by_cases h : replace_in_file f = .failed
    · rw [List.cons_append, replaceErrs_cons_failed h, replaceErrs_cons_failed h,
        ih, List.cons_append]
    · rw [List.cons_append]
      simp only [replaceErrs, if_neg h]
      exact ih

/-- Core of idempotence: scanning the filesystem the apply loop produced never
yields a file the replacer would change again. -/
theorem second_scan_changed_nil (es : FSEntries) :
    changedOf (find_files_with_bad_flag (applyEntries es)).1 = [] := by
  apply changedOf_eq_nil
  rintro ⟨f, k⟩ hp
  rw [find_files_with_bad_flag] at hp
  obtain ⟨hmem, hbf, hk, hkpos⟩ := scanFiles_mem _ hp
  rw [walkEntries_applyEntries] at hmem
  obtain ⟨f0, hf0, rfl⟩ := List.mem_map.mp hmem
  exact applyFile_no_rechange f0 hbf (hk ▸ hkpos)

theorem applyFile_of_not_pos {f : SFile} (hb : is_binary_file f = false)
    (hc : ¬ 0 < countOcc BAD f.content) : applyFile f = f := by
  rw [applyFile, if_neg (by simp [hb]),
    if_neg (by simp [readOk_of_not_binary hb]), if_neg hc]

theorem applyFile_of_selected {f : SFile} (hb : is_binary_file f = false)
    (hc : 0 < countOcc BAD f.content) :
    applyFile f = { f with content := replacedContent f } := by
  rw [applyFile, if_neg (by simp [hb]),
    if_neg (by simp [readOk_of_not_binary hb]), if_pos hc]

theorem applyFile_idem (f : SFile) : applyFile (applyFile f) = applyFile f := by
  by_cases hb : is_binary_file f = true
  · rw [applyFile_of_binary hb, applyFile_of_binary hb]
  · have hbf : is_binary_file f = false := Bool.eq_false_iff.mpr hb
    by_cases hc : 0 < countOcc BAD f.content
    · cases hch : replace_in_file f with
      | changed =>
        rw [applyFile_of_selected hbf hc]
        by_cases hb' : is_binary_file { f with content := replacedContent f } = true
        · exact applyFile_of_binary hb'
        · apply applyFile_of_not_pos (Bool.eq_false_iff.mpr hb')
          show ¬ 0 < countOcc BAD (replacedContent f)
          rw [replacedContent_of_changed hch, countOcc_pyReplace_zero]
          simp
      | unchanged =>
        have hid : applyFile f = f := applyFile_of_not_changed (by simp [hch])
        simp only [hid]
      | failed =>
        have hid : applyFile f = f := applyFile_of_not_changed (by simp [hch])
        simp only [hid]
    · have hid : applyFile f = f := applyFile_of_not_pos hbf hc
      simp only [hid]

mutual

theorem applyEntry_idem (e : FSEntry) : applyEntry (applyEntry e) = applyEntry e := by
  cases e with
  | file f =>
    show FSEntry.file (applyFile (applyFile f)) = FSEntry.file (applyFile f)
    rw [applyFile_idem]
  | dir n es =>
    by_cases hn : n ∈ SKIP_DIRS
    · simp [applyEntry, hn]
    · simp only [applyEntry, if_neg hn]
      rw [applyEntries_idem es]

theorem applyEntries_idem (es : FSEntries) :
    applyEntries (applyEntries es) = applyEntries es := by
  cases es with
  | nil => rfl
  | cons e es =>
    show FSEntries.cons (applyEntry (applyEntry e)) (applyEntries (applyEntries es))
      = FSEntries.cons (applyEntry e) (applyEntries es)
    rw [applyEntry_idem e, applyEntries_idem es]

end

theorem runMain_changed_of_nil {a c rk g : Bool} {X : FSEntries}
    (h : changedOf (find_files_with_bad_flag X).1 = []) :
    (runMain a c rk g X).changed = [] := by
  cases rk with
  | false => simp [runMain]
  | true =>
    cases hscan : (find_files_with_bad_flag X).1 with
    | nil => simp [runMain, hscan]
    | cons p ps =>
      rw [hscan] at h
      cases hap : a || c with
      | false => simp [runMain, hscan, hap]
      | true => simp [runMain, hscan, hap, h]

theorem runMain_fs_idem {a c rk g : Bool} {X : FSEntries}
    (h : applyEntries X = X) : (runMain a c rk g X).fs = X := by
  cases rk with
  | false => simp [runMain]
  | true =>
    cases hscan : (find_files_with_bad_flag X).1 with
    | nil => simp [runMain, hscan]
    | cons p ps =>
      cases hap : a || c with
      | false => simp [runMain, hscan, hap]
      | true =>
        by_cases hch : (changedOf ((p :: ps) : List (SFile × Nat))).isEmpty = true
        · simp [runMain, hscan, hap, hch, h]
        · cases hc : c with
          | false =>
            have haT : a = true := by
              cases a with
              | true => rfl
              | false => rw [hc] at hap; simp at hap
            simp [runMain, hscan, hap, hch, hc, haT, h]
          | true =>
            cases g with
            | false => simp [runMain, hscan, hap, hch, hc, h]
            | true => simp [runMain, hscan, hap, hch, hc, h]

theorem runMain_fs_cases (a c g : Bool) (es : FSEntries) (ha : (a || c) = true) :
    (runMain a c true g es).fs = applyEntries es ∨
      ((runMain a c true g es).fs = es ∧ (find_files_with_bad_flag es).1 = []) := by
  cases hscan : (find_files_with_bad_flag es).1 with
  | nil => right; exact ⟨by simp [runMain, hscan], rfl⟩
  | cons p ps =>
    left
    by_cases hch : (changedOf ((p :: ps) : List (SFile × Nat))).isEmpty = true
    · simp [runMain, hscan, ha, hch]
    · by_cases hc : c = true
      · cases g with
        | false => simp [runMain, hscan, ha, hch, hc]
        | true => simp [runMain, hscan, ha, hch, hc]
      · have haT : a = true := by
          cases a with
          | true => rfl
          | false => cases c <;> simp_all
        simp [runMain, hscan, ha, hch, hc, haT]

theorem runMain_dry (g : Bool) (es : FSEntries) :
    runMain false false true g es
      = { exitCode := 0, fs := es, found := (find_files_with_bad_flag es).1,
          changed := [], staged := [], committed := false,
          errLog := (find_files_with_bad_flag es).2 } := by
  cases hscan : (find_files_with_bad_flag es).1 with
  | nil => simp [runMain, hscan]
  | cons p ps => simp [runMain, hscan]

/-- The scenario file of the spec: a text line assigning the bad flag. -/
def wTxt : SFile :=
  { name := "BUILD.gn".toList,
    content := "flags = [\"-Wno-nontrivial-memcall\"]".toList,
    readOk := true, writeOk := true }

/-- A one-file tree holding `wTxt`. -/
def wTree : FSEntries := .cons (.file wTxt) .nil

/-- A deny-listed extension written in upper case, flag in the raw bytes. -/
def wPngU : SFile :=
  { name := "X.PNG".toList, content := BAD, readOk := true, writeOk := true }

/-- The lower-case counterpart of `wPngU`. -/
def wPngL : SFile :=
  { name := "x.png".toList, content := BAD, readOk := true, writeOk := true }

/-- An unreadable text file containing the bad flag. -/
def wNoRead : SFile :=
  { name := "locked.txt".toList, content := BAD, readOk := false, writeOk := true }

/-- A readable but unwritable file containing the bad flag. -/
def wNoWrite : SFile :=
  { name := "ro.txt".toList,
    content := "flags = [\"-Wno-nontrivial-memcall\"]".toList,
    readOk := true, writeOk := false }

/-- C1: for every file the apply loop rewrites, the new content contains no
occurrence of the bad flag, and only the matched occurrences change: the old
content is the pattern-free pieces of its match decomposition joined by the
bad flag, and the new content is the same pieces joined by the good flag. -/
theorem claim_C1 (f : SFile) (h : replace_in_file f = .changed) :
    containsSub BAD (replacedContent f) = false
    ∧ joinWith BAD (pySplit BAD f.content) = f.content
    ∧ joinWith GOOD (pySplit BAD f.content) = replacedContent f
    ∧ ∀ p ∈ pySplit BAD f.content, containsSub BAD p = false := by
  rw [replacedContent_of_changed h]
  exact ⟨no_bad_after_replace f.content,
    joinWith_pat_pySplitF (by decide) f.content.length f.content le_rfl,
    joinWith_rep_pySplitF (by decide) f.content.length f.content le_rfl,
    pySplitF_pieces_clean (by decide) f.content.length f.content le_rfl⟩

theorem claim_C1_witness :
    replace_in_file wTxt = .changed
    ∧ (containsSub BAD (replacedContent wTxt) = false
      ∧ joinWith BAD (pySplit BAD wTxt.content) = wTxt.content
      ∧ joinWith GOOD (pySplit BAD wTxt.content) = replacedContent wTxt
      ∧ ∀ p ∈ pySplit BAD wTxt.content, containsSub BAD p = false) :=
  ⟨by decide, claim_C1 wTxt (by decide)⟩

/-- C2: apply mode is idempotent — a second apply-mode run on the filesystem a
first apply-mode run produced modifies no file and leaves the tree as it is. -/
theorem claim_C2 (cf cf' g g' : Bool) (es : FSEntries) :
    (runMain true cf' true g' ((runMain true cf true g es).fs)).changed = []
    ∧ (runMain true cf' true g' ((runMain true cf true g es).fs)).fs
      = (runMain true cf true g es).fs := by
  rcases runMain_fs_cases true cf g es (by simp) with hfs | ⟨hfs, hnil⟩
  · rw [hfs]
    exact ⟨runMain_changed_of_nil (second_scan_changed_nil es),
      runMain_fs_idem (applyEntries_idem es)⟩
  · rw [hfs]
    refine ⟨runMain_changed_of_nil (by rw [hnil]; rfl), ?_⟩
    cases hscan : (find_files_with_bad_flag es).1 with
    | nil => simp [runMain, hscan]
    | cons p ps => rw [hscan] at hnil; exact absurd hnil (by simp)

/-- C3: a dry run (no `--apply`, no `--commit`) leaves the tree untouched,
changes, stages and commits nothing, exits 0, and reports every walked
non-binary file whose content contains the flag, with its occurrence count. -/
theorem claim_C3 (g : Bool) (es : FSEntries) :
    (runMain false false true g es).fs = es
    ∧ (runMain false false true g es).changed = []
    ∧ (runMain false false true g es).staged = []
    ∧ (runMain false false true g es).committed = false
    ∧ (runMain false false true g es).exitCode = 0
    ∧ ∀ f ∈ walkEntries es, is_binary_file f = false →
        0 < countOcc BAD f.content →
        (f, countOcc BAD f.content) ∈ (runMain false false true g es).found := by
  rw [runMain_dry]
  refine ⟨rfl, rfl, rfl, rfl, rfl, ?_⟩
  intro f hf hb hc
  exact scanFiles_complete (walkEntries es) hf hb hc

theorem claim_C3_witness :
    (runMain false false true true wTree).fs = wTree
    ∧ (runMain false false true true wTree).changed = []
    ∧ (runMain false false true true wTree).staged = []
    ∧ (runMain false false true true wTree).committed = false
    ∧ (runMain false false true true wTree).exitCode = 0
    ∧ ∀ f ∈ walkEntries wTree, is_binary_file f = false →
        0 < countOcc BAD f.content →
        (f, countOcc BAD f.content) ∈ (runMain false false true true wTree).found :=
  claim_C3 true wTree

/-- C4: a file with a deny-listed (lower-cased) extension, or a null byte in
its first 8192 bytes, is classified binary, never reported by the scan, and
never modified by the apply loop — even if its raw bytes contain the flag. -/
theorem claim_C4 (f : SFile)
    (h : (pySuffix f.name).map Char.toLower ∈ BINARY_EXTENSIONS
      ∨ Char.ofNat 0 ∈ f.content.take 8192) :
    is_binary_file f = true
    ∧ (∀ fs k, ¬ (f, k) ∈ (scanFiles fs).1)
    ∧ applyFile f = f := by
  have hb : is_binary_file f = true := by
    rw [is_binary_file]
    by_cases h1 : (pySuffix f.name).map Char.toLower ∈ BINARY_EXTENSIONS
    · rw [if_pos h1]
    · rcases h with h | h2
      · exact absurd h h1
      · rw [if_neg h1]
        by_cases hro : f.readOk = false
        · rw [if_pos hro]
        · rw [if_neg hro, if_pos (List.elem_eq_true_of_mem h2)]
  refine ⟨hb, ?_, applyFile_of_binary hb⟩
  intro fs k hmem
  obtain ⟨_, hbf, _, _⟩ := scanFiles_mem fs hmem
  rw [hb] at hbf
  simp at hbf

theorem claim_C4_witness :
    ((pySuffix wPngU.name).map Char.toLower ∈ BINARY_EXTENSIONS
      ∨ Char.ofNat 0 ∈ wPngU.content.take 8192)
    ∧ (is_binary_file wPngU = true
      ∧ (∀ fs k, ¬ (wPngU, k) ∈ (scanFiles fs).1)
      ∧ applyFile wPngU = wPngU) :=
  ⟨Or.inl (by decide), claim_C4 wPngU (Or.inl (by decide))⟩

/-- C5: a directory named in the skip-set is never traversed — the walker
yields nothing below it and the apply loop leaves it untouched — and in
general walking a tree equals the unfiltered walk of the skip-pruned tree. -/
theorem claim_C5 (n : List Char) (sub : FSEntries) (hn : n ∈ SKIP_DIRS) :
    walkEntry (.dir n sub) = []
    ∧ applyEntry (.dir n sub) = .dir n sub
    ∧ ∀ es, walkEntries es = allEntries (pruneEntries es) :=
  ⟨by simp [walkEntry, hn], by simp [applyEntry, hn], walkEntries_eq_pruned⟩

theorem claim_C5_witness :
    (".git".toList ∈ SKIP_DIRS)
    ∧ (walkEntry (.dir ".git".toList wTree) = []
      ∧ applyEntry (.dir ".git".toList wTree) = .dir ".git".toList wTree
      ∧ ∀ es, walkEntries es = allEntries (pruneEntries es)) :=
  ⟨by decide, claim_C5 ".git".toList wTree (by decide)⟩

/-- C7: when `replace_in_file` fails on a file (read or write error), the file
keeps its content, it is excluded from the modified list while the other files'
entries are kept exactly, and the failure is reported on the error stream. -/
theorem claim_C7 (f : SFile) (hf : replace_in_file f = .failed) :
    applyFile f = f
    ∧ (∀ k pre post,
        changedOf (pre ++ (f, k) :: post) = changedOf pre ++ changedOf post)
    ∧ (∀ k pre post, .couldNotModify f ∈ replaceErrs (pre ++ (f, k) :: post)) := by
  refine ⟨applyFile_of_not_changed (by simp [hf]), ?_, ?_⟩
  · intro k pre post
    rw [changedOf_append, changedOf_cons_not (by simp [hf])]
  · intro k pre post
    rw [replaceErrs_append, replaceErrs_cons_failed hf]
    exact List.mem_append_right _ (List.mem_cons_self _ _)

theorem claim_C7_witness :
    replace_in_file wNoWrite = .failed
    ∧ (applyFile wNoWrite = wNoWrite
      ∧ (∀ k pre post, changedOf (pre ++ (wNoWrite, k) :: post)
          = changedOf pre ++ changedOf post)
      ∧ (∀ k pre post,
          .couldNotModify wNoWrite ∈ replaceErrs (pre ++ (wNoWrite, k) :: post))) :=
  ⟨by decide, claim_C7 wNoWrite (by decide)⟩

/-- C8 counterexample: an unreadable file containing the bad flag is indeed
skipped (classified binary, absent from the scan result and the run continues),
but the scan emits no diagnostic at all for it — the error-stream report the
claim asserts does not happen, because the classifier swallows the read error
silently and the scanner's warning branch is never reached. -/
theorem claim_C8_cex :
    wNoRead.readOk = false
    ∧ containsSub BAD wNoRead.content = true
    ∧ is_binary_file wNoRead = true
    ∧ scanFiles [wNoRead] = ([], []) := by decide

/-- C8 (amended): a file whose read fails is classified binary/unreadable and
silently skipped: scanning it changes neither the result set nor the error
stream, it never appears in the result set, and the run continues with the
remaining files. -/
theorem claim_C8 (f : SFile) (h : f.readOk = false) :
    is_binary_file f = true
    ∧ (∀ fs, scanFiles (f :: fs) = scanFiles fs)
    ∧ (∀ fs k, ¬ (f, k) ∈ (scanFiles fs).1) := by
  have hb : is_binary_file f = true := by
    rw [is_binary_file]
    split
    · rfl
    · simp [h]
  refine ⟨hb, fun fs => scanFiles_cons_binary hb fs, ?_⟩
  intro fs k hmem
  obtain ⟨_, hbf, _, _⟩ := scanFiles_mem fs hmem
  rw [hb] at hbf
  simp at hbf

theorem claim_C8_witness :
    wNoRead.readOk = false
    ∧ (is_binary_file wNoRead = true
      ∧ (∀ fs, scanFiles (wNoRead :: fs) = scanFiles fs)
      ∧ (∀ fs k, ¬ (wNoRead, k) ∈ (scanFiles fs).1)) :=
  ⟨by decide, claim_C8 wNoRead (by decide)⟩

/-- C10: the binary-extension check compares the lower-cased suffix, so two
files agreeing on content and readability whose suffixes agree up to case are
classified identically. -/
theorem claim_C10 (f g : SFile)
    (hn : (pySuffix f.name).map Char.toLower = (pySuffix g.name).map Char.toLower)
    (hc : f.content = g.content) (hr : f.readOk = g.readOk) :
    is_binary_file f = is_binary_file g := by
  rw [is_binary_file, is_binary_file, hn, hc, hr]

theorem claim_C10_witness :
    ((pySuffix wPngU.name).map Char.toLower
        = (pySuffix wPngL.name).map Char.toLower
      ∧ wPngU.content = wPngL.content ∧ wPngU.readOk = wPngL.readOk)
    ∧ is_binary_file wPngU = is_binary_file wPngL
    ∧ is_binary_file wPngU = true :=
  ⟨⟨by decide, rfl, rfl⟩, claim_C10 wPngU wPngL (by decide) rfl rfl, by decide⟩

/-- C6: with an invalid root the run exits 1 before scanning or changing
anything; with a valid root the exit status is 0 or 1, and it is 1 exactly
when `--commit` was given, at least one file was rewritten, and the git
subprocess failed; in particular `--commit` with zero modified files commits
nothing and exits 0. -/
theorem claim_C6 (a c g : Bool) (es : FSEntries) :
    ((runMain a c false g es).exitCode = 1
      ∧ (runMain a c false g es).fs = es
      ∧ (runMain a c false g es).found = []
      ∧ (runMain a c false g es).changed = [])
    ∧ ((runMain a c true g es).exitCode = 0 ∨ (runMain a c true g es).exitCode = 1)
    ∧ ((runMain a c true g es).exitCode = 1
        ↔ c = true ∧ g = false ∧ (runMain a c true g es).changed ≠ [])
    ∧ ((runMain a c true g es).changed = [] →
        (runMain a c true g es).exitCode = 0
          ∧ (runMain a c true g es).committed = false) := by
  refine ⟨⟨by simp [runMain], by simp [runMain], by simp [runMain], by simp [runMain]⟩,
    ?_, ?_, ?_⟩ <;>
  · cases hscan : (find_files_with_bad_flag es).1 with
    | nil => simp [runMain, hscan]
    | cons p ps =>
      cases hap : a || c with
      | false =>
        have hcF : c = false := by cases c <;> simp_all
        have haF : a = false := by cases a <;> simp_all
        simp [runMain, hscan, hap, hcF, haF]
      | true =>
        cases hch : changedOf (p :: ps) with
        | nil => simp [runMain, hscan, hap, hch]
        | cons q qs =>
          cases hc : c with
          | false =>
            have haT : a = true := by cases a <;> simp_all
            simp [runMain, hscan, hap, hch, hc, haT]
          | true =>
            cases hg : g with
            | false => simp [runMain, hscan, hap, hch, hc, hg]
            | true => simp [runMain, hscan, hap, hch, hc, hg]

/-- C9: version control runs only under `--commit` with at least one rewritten
file: a commit implies `--commit`, git success and a nonempty modified list;
whatever is staged is exactly the modified list in rewrite order; and without
`--commit` (dry run or apply-only) nothing is staged or committed. -/
theorem claim_C9 (a c rk g : Bool) (es : FSEntries) :
    ((runMain a c rk g es).committed = true →
      c = true ∧ g = true ∧ (runMain a c rk g es).changed ≠ [])
    ∧ ((runMain a c rk g es).staged ≠ [] →
        c = true ∧ (runMain a c rk g es).changed ≠ [])
    ∧ ((runMain a c rk g es).staged = (runMain a c rk g es).changed
        ∨ (runMain a c rk g es).staged = [])
    ∧ (c = false → (runMain a c rk g es).staged = []
        ∧ (runMain a c rk g es).committed = false)
    ∧ ((runMain a c rk g es).changed ≠ [] → c = true →
        (runMain a c rk g es).staged = (runMain a c rk g es).changed) := by
  refine ⟨?_, ?_, ?_, ?_, ?_⟩ <;>
  · cases rk with
    | false => simp [runMain]
    | true =>
      cases hscan : (find_files_with_bad_flag es).1 with
      | nil => simp [runMain, hscan]
      | cons p ps =>
        cases hap : a || c with
        | false =>
          have hcF : c = false := by cases c <;> simp_all
          have haF : a = false := by cases a <;> simp_all
          simp [runMain, hscan, hap, hcF, haF]
        | true =>
          cases hch : changedOf (p :: ps) with
          | nil => simp [runMain, hscan, hap, hch]
          | cons q qs =>
            cases hc : c with
            | false =>
              have haT : a = true := by cases a <;> simp_all
              simp [runMain, hscan, hap, hch, hc, haT]
            | true =>
              cases hg : g with
              | false => simp [runMain, hscan, hap, hch, hc, hg]
              | true => simp [runMain, hscan, hap, hch, hc, hg]

